import Mathlib

/-!
Verification of the agent-to-agent message broker (`MessageQue.py`).

The development shallowly embeds the broker core:
* `Message` — the dataclass (its `__lt__` compares by `priority`, higher first);
* the mailbox — Python's `queue.PriorityQueue`, whose `put`/`get_nowait`
  delegate to CPython's `heapq.heappush`/`heapq.heappop`; the heap algorithms
  (`_siftdown`, `_siftup`) are embedded faithfully, specialised to the
  `Message.__lt__` comparison;
* `MessageBroker` — `register_agent`, `send_message`, `receive_message`,
  with Python dicts embedded as insertion-ordered association lists;
* `MessageQueueAgent.handle_message` / `execute_task` / `process_request`,
  with the LLM collaborator abstracted as a function `String → String`.

Python's `uuid.uuid4()` (called once per `send_message`) is modelled as a
fresh-token oracle: the broker carries a counter `nextId`, and each send stamps
the current counter value and increments it; tokens are therefore pairwise
distinct across sends, which is the property the code relies on.
-/

namespace MessageQue

/-- `MessageType` enum from the source. -/
inductive MessageType where
  | REQUEST
  | RESPONSE
  | BROADCAST
  | TASK_ASSIGNMENT
deriving DecidableEq, Repr

/-- The `Message` dataclass. `id` is Python's uuid string, modelled as a
natural-number token (see the file header); `reply_to : Optional[str]` becomes
`Option Nat`. -/
structure Message where
  id : Nat
  sender : String
  receiver : String
  message_type : MessageType
  content : String
  priority : Int := 1
  reply_to : Option Nat := none
deriving DecidableEq, Repr

instance : Inhabited Message :=
  ⟨{ id := 0, sender := "", receiver := "", message_type := .REQUEST,
     content := "", priority := 1, reply_to := none }⟩

/-- `Message.__lt__`: `self.priority > other.priority` (higher priority is
"smaller" for the min-heap, so it is served first). -/
def msgLt (a b : Message) : Bool := b.priority < a.priority

/-- CPython `heapq._siftdown(heap, startpos, pos)`.  The loop walks `pos` up
toward `startpos`, shifting parents down while `newitem < parent`; the caller
guarantees the entry at `pos` is `newitem` (so the final `set` writes it at its
resting place). -/
def siftdownAux (heap : List Message) (startpos pos : Nat) (newitem : Message) :
    List Message :=
  if _h : startpos < pos then
    if (heap.getD ((pos - 1) / 2) default).priority < newitem.priority then
      siftdownAux (heap.set pos (heap.getD ((pos - 1) / 2) default)) startpos
        ((pos - 1) / 2) newitem
    else
      heap.set pos newitem
  else
    heap.set pos newitem
termination_by pos
decreasing_by omega

/-- CPython `heapq._siftup(heap, pos)` (with `endpos`, `startpos`, `newitem`
made explicit loop state).  It bubbles the hole at `pos` down to a leaf, always
choosing the child that is not `__lt__`-greater (here: the child of maximal
`priority`, the right one on ties), then calls `_siftdown` to restore
`newitem`. -/
def siftupAux (heap : List Message) (endpos startpos pos : Nat)
    (newitem : Message) : List Message :=
  if _h : 2 * pos + 1 < endpos then
    if _h2 : 2 * pos + 2 < endpos ∧
        ¬ msgLt (heap.getD (2 * pos + 1) default)
          (heap.getD (2 * pos + 2) default) then
      siftupAux (heap.set pos (heap.getD (2 * pos + 2) default)) endpos
        startpos (2 * pos + 2) newitem
    else
      siftupAux (heap.set pos (heap.getD (2 * pos + 1) default)) endpos
        startpos (2 * pos + 1) newitem
  else
    siftdownAux (heap.set pos newitem) startpos pos newitem
termination_by endpos - pos
decreasing_by
  · omega
  · omega

/-- `heapq._siftup(heap, pos)` proper: `newitem` is read from `heap[pos]`,
`endpos` is the length, `startpos` is `pos`. -/
def siftup (heap : List Message) (pos : Nat) : List Message :=
  siftupAux heap heap.length pos pos (heap.getD pos default)

/-- `heapq.heappush(heap, item)`: append, then sift down from the new leaf. -/
def heappush (heap : List Message) (item : Message) : List Message :=
  siftdownAux (heap ++ [item]) 0 heap.length item

/-- `heapq.heappop(heap)`: remove and return `heap[0]`; the last element is
moved to the root and `_siftup` restores the heap.  `none` on the empty heap
(CPython raises `IndexError`; `PriorityQueue.get_nowait` raises `Empty`). -/
def heappop : List Message → Option (Message × List Message)
  | [] => none
  | [x] => some (x, [])
  | x :: y :: rest =>
    let lastelt := (y :: rest).getLast (by simp)
    some (x, siftup (lastelt :: (y :: rest).dropLast) 0)

/-- `MessageBroker` state: `agent_queues : dict[str, PriorityQueue]` and
`message_history : dict[str, list]` as insertion-ordered association lists,
plus the fresh-id counter modelling `uuid.uuid4()` (file header). -/
structure Broker where
  agent_queues : List (String × List Message)
  message_history : List (String × List Message)
  nextId : Nat
deriving Repr

/-- Python dict assignment `d[k] = v`: replace the binding in place if the key
is present, else append the new binding (insertion order). -/
def dictSet {α : Type} (d : List (String × α)) (k : String) (v : α) :
    List (String × α) :=
  match d with
  | [] => [(k, v)]
  | (k', v') :: rest =>
    if k' = k then (k, v) :: rest else (k', v') :: dictSet rest k v

/-- `MessageBroker.register_agent`: unconditionally installs a fresh empty
queue and a fresh empty history bucket for `agent_id`. -/
def register_agent (b : Broker) (agent_id : String) : Broker :=
  { b with
    agent_queues := dictSet b.agent_queues agent_id []
    message_history := dictSet b.message_history agent_id [] }

/-- `MessageBroker.send_message`: stamps a fresh id onto the message, then
routes — broadcast to every registered agent except the sender when the
receiver is `"ALL"`, to the receiver's queue when registered, silently dropped
otherwise — and appends the stamped message to the sender's history bucket if
the sender is registered.  The Python function has no `return` statement, so it
returns `None`: the second component is always `none`. -/
def send_message (b : Broker) (message : Message) : Broker × Option Message :=
  let m := { message with id := b.nextId }
  let qs :=
    if m.receiver = "ALL" then
      b.agent_queues.map fun p =>
        if p.1 = m.sender then p else (p.1, heappush p.2 m)
    else
      match b.agent_queues.lookup m.receiver with
      | some q => dictSet b.agent_queues m.receiver (heappush q m)
      | none => b.agent_queues
  let hist :=
    match b.message_history.lookup m.sender with
    | some hs => dictSet b.message_history m.sender (hs ++ [m])
    | none => b.message_history
  ({ agent_queues := qs, message_history := hist, nextId := b.nextId + 1 },
   none)

/-- `MessageBroker.receive_message`: non-blocking.  A missing key raises
`KeyError`, swallowed by the bare `except` (→ `none`, state unchanged); an
empty queue skips the `get_nowait` (→ `none`); otherwise the popped message is
returned.  The unused `timeout` parameter is omitted. -/
def receive_message (b : Broker) (agent_id : String) :
    Broker × Option Message :=
  match b.agent_queues.lookup agent_id with
  | none => (b, none)
  | some q =>
    if q.isEmpty then (b, none)
    else
      match heappop q with
      | none => (b, none)
      | some (m, q') =>
        ({ b with agent_queues := dictSet b.agent_queues agent_id q' }, some m)

/-- `MessageQueueAgent.process_request`: formats the prompt f-string and calls
the LLM collaborator (`invoke` and `__call__` branches coincide under the
functional abstraction). -/
def process_request (agent_id : String) (llm : String → String)
    (request : String) : String :=
  llm ("\n        You are agent " ++ agent_id ++
    ". \n        You received this request: " ++ request ++
    "\n        \n        Please provide a helpful response:\n        ")

/-- `MessageQueueAgent.execute_task`: runs the collaborator on the task, then
broadcasts the completion message through the broker. -/
def execute_task (b : Broker) (agent_id : String) (llm : String → String)
    (task : String) : Broker :=
  let result := process_request agent_id llm ("Execute this task: " ++ task)
  (send_message b
    { id := 0, sender := agent_id, receiver := "ALL",
      message_type := .BROADCAST,
      content := "Task completed: " ++ task ++ ". Result: " ++ result,
      priority := 1, reply_to := none }).1

/-- `MessageQueueAgent.handle_message`: dispatch on message type.  `REQUEST`
sends one `RESPONSE` back to the sender; `TASK_ASSIGNMENT` runs
`execute_task`; `RESPONSE` and `BROADCAST` only log (no broker effect). -/
def handle_message (b : Broker) (agent_id : String) (llm : String → String)
    (message : Message) : Broker :=
  match message.message_type with
  | .REQUEST =>
    let response_content := process_request agent_id llm message.content
    (send_message b
      { id := 0, sender := agent_id, receiver := message.sender,
        message_type := .RESPONSE, content := response_content,
        priority := 1, reply_to := some message.id }).1
  | .TASK_ASSIGNMENT => execute_task b agent_id llm message.content
  | _ => b

/-- `MessageQueueAgent.send_request`: wraps the request in a `Message` and
sends it. -/
def send_request (b : Broker) (agent_id : String) (target_agent : String)
    (request : String) (priority : Int) : Broker :=
  (send_message b
    { id := 0, sender := agent_id, receiver := target_agent,
      message_type := .REQUEST, content := request, priority := priority,
      reply_to := none }).1

/-- Push a whole arrival sequence into one mailbox, in order. -/
def pushAll (msgs : List Message) : List Message :=
  msgs.foldl heappush []

/-- Drain a mailbox by repeated `heappop` until empty. -/
def drainFuel : Nat → List Message → List Message
  | 0, _ => []
  | n + 1, l =>
    match heappop l with
    | none => []
    | some (m, rest) => m :: drainFuel n rest

/-- Successive `TryPop` results of a mailbox, until empty. -/
def drain (l : List Message) : List Message := drainFuel l.length l

/-! ## Heap invariant infrastructure -/

/-- Priority stored at index `i` (default-padded outside the list; all
verified accesses are in range). -/
def prio (l : List Message) (i : Nat) : Int := (l.getD i default).priority

/-- Parent index in the implicit binary heap layout. -/
def par (i : Nat) : Nat := (i - 1) / 2

/-- The heap invariant induced by `Message.__lt__`: no element has strictly
higher priority than its parent, so the root has maximal priority. -/
def HeapInv (l : List Message) : Prop :=
  ∀ i, 0 < i → i < l.length → prio l i ≤ prio l (par i)

/-- State during `_siftdown`'s bubble-up: every parent edge holds except
possibly the one into `p`, and `p`'s grandparent already dominates `p`'s
children. -/
def BubbleInv (l : List Message) (p : Nat) : Prop :=
  (∀ i, 0 < i → i < l.length → i ≠ p → prio l i ≤ prio l (par i)) ∧
  (∀ i, 0 < i → i < l.length → par i = p → 0 < p → prio l i ≤ prio l (par p))

/-- State during `_siftup`'s walk to a leaf: every parent edge not touching
the hole `p` holds, and `p`'s parent dominates `p`'s children. -/
def HoleInv (l : List Message) (p : Nat) : Prop :=
  (∀ i, 0 < i → i < l.length → i ≠ p → par i ≠ p → prio l i ≤ prio l (par i)) ∧
  (∀ i, 0 < i → i < l.length → par i = p → 0 < p → prio l i ≤ prio l (par p))

theorem getD_set_self {α : Type} {l : List α} {i : Nat} (x d : α)
    (h : i < l.length) : (l.set i x).getD i d = x := by
  rw [List.getD_eq_getElem _ _ (by simpa using h), List.getElem_set_self]

theorem getD_set_ne {α : Type} {l : List α} {i j : Nat} (x d : α)
    (h : i ≠ j) : (l.set i x).getD j d = l.getD j d := by
  by_cases hj : j < l.length
  · rw [List.getD_eq_getElem _ _ (by simpa using hj),
      List.getElem_set_ne h, List.getD_eq_getElem _ _ hj]
  · rw [List.getD_eq_default _ _ (by simp; omega),
      List.getD_eq_default _ _ (by omega)]

theorem set_getD_self {α : Type} {l : List α} {n : Nat} (d : α)
    (h : n < l.length) : l.set n (l.getD n d) = l := by
  apply List.ext_getElem
  · simp
  · intro i h1 h2
    rw [List.getElem_set]
    split
    · subst ‹n = i›; rw [List.getD_eq_getElem _ _ h]
    · rfl

theorem prio_set_self {l : List Message} {i : Nat} (x : Message)
    (h : i < l.length) : prio (l.set i x) i = x.priority := by
  rw [prio, getD_set_self _ _ h]

theorem prio_set_ne {l : List Message} {i j : Nat} (x : Message)
    (h : i ≠ j) : prio (l.set i x) j = prio l j := by
  rw [prio, getD_set_ne _ _ h, prio]

theorem set_perm_cons {α : Type} :
    ∀ (l : List α) (n : Nat) (a : α), n < l.length →
      (l.set n a).Perm (a :: l.eraseIdx n)
  | [], n, a, h => by simp at h
  | x :: t, 0, a, _ => by simp
  | x :: t, n + 1, a, h => by
    have ih := set_perm_cons t n a (by simpa using h)
    exact (ih.cons x).trans (List.Perm.swap a x _)

theorem cons_getD_eraseIdx {α : Type} (l : List α) (n : Nat) (d : α)
    (h : n < l.length) : l.Perm (l.getD n d :: l.eraseIdx n) := by
  have := set_perm_cons l n (l.getD n d) h
  rwa [set_getD_self d h] at this

theorem set_set_perm {α : Type} (d : α) :
    ∀ (l : List α) (i j : Nat), i < l.length → j < l.length → i ≠ j →
      ((l.set i (l.getD j d)).set j (l.getD i d)).Perm l := by
  intro l
  induction l with
  | nil => intro i j hi _ _; simp at hi
  | cons a t ih =>
    intro i j hi hj hij
    match i, j with
    | 0, 0 => exact absurd rfl hij
    | 0, m + 1 =>
      simp only [List.getD_cons_succ, List.getD_cons_zero, List.set_cons_zero,
        List.set_cons_succ]
      have hm : m < t.length := by simpa using hj
      exact (((set_perm_cons t m a hm).cons _).trans
        (List.Perm.swap ..)).trans ((cons_getD_eraseIdx t m d hm).cons a).symm
    | k + 1, 0 =>
      simp only [List.getD_cons_succ, List.getD_cons_zero, List.set_cons_zero,
        List.set_cons_succ]
      have hk : k < t.length := by simpa using hi
      exact (((set_perm_cons t k a hk).cons _).trans
        (List.Perm.swap ..)).trans ((cons_getD_eraseIdx t k d hk).cons a).symm
    | k + 1, m + 1 =>
      simp only [List.getD_cons_succ, List.set_cons_succ]
      exact (ih k m (by simpa using hi) (by simpa using hj)
        (by omega)).cons a

theorem par_lt {i : Nat} (h : 0 < i) : par i < i := by
  rw [par]; omega

theorem siftdownAux_length (pos : Nat) :
    ∀ (l : List Message) (startpos : Nat) (x : Message),
      (siftdownAux l startpos pos x).length = l.length := by
  induction pos using Nat.strong_induction_on with
  | _ pos ih =>
    intro l startpos x
    unfold siftdownAux
    split
    · split
      · rw [ih _ (by omega), List.length_set]
      · exact List.length_set ..
    · exact List.length_set ..

theorem siftupAux_length (n : Nat) :
    ∀ (l : List Message) (endpos startpos pos : Nat) (x : Message),
      endpos - pos ≤ n → (siftupAux l endpos startpos pos x).length = l.length := by
  induction n with
  | zero =>
    intro l endpos startpos pos x hn
    unfold siftupAux
    split
    · omega
    · rw [siftdownAux_length, List.length_set]
  | succ n ih =>
    intro l endpos startpos pos x hn
    unfold siftupAux
    split
    · split
      · rw [ih _ _ _ _ _ (by omega), List.length_set]
      · rw [ih _ _ _ _ _ (by omega), List.length_set]
    · rw [siftdownAux_length, List.length_set]

theorem siftup_length (l : List Message) (pos : Nat) :
    (siftup l pos).length = l.length :=
  siftupAux_length (l.length - pos) l l.length pos pos _ le_rfl

theorem siftdownAux_subset (pos : Nat) :
    ∀ (l : List Message) (startpos : Nat) (x : Message) (z : Message),
      pos < l.length → z ∈ siftdownAux l startpos pos x → z ∈ l ∨ z = x := by
  induction pos using Nat.strong_induction_on with
  | _ pos ih =>
    intro l startpos x z hpos hz
    unfold siftdownAux at hz
    split at hz
    · split at hz
      · have hp : (pos - 1) / 2 < l.length := by omega
        rcases ih _ (by omega) _ _ _ _ (by simpa using hp) hz with h | h
        · rcases List.mem_or_eq_of_mem_set h with h' | h'
          · exact Or.inl h'
          · subst h'
            exact Or.inl (by
              rw [List.getD_eq_getElem _ _ hp]; exact List.getElem_mem hp)
        · exact Or.inr h
      · rcases List.mem_or_eq_of_mem_set hz with h | h
        · exact Or.inl h
        · exact Or.inr h
    · rcases List.mem_or_eq_of_mem_set hz with h | h
      · exact Or.inl h
      · exact Or.inr h

theorem siftupAux_subset (n : Nat) :
    ∀ (l : List Message) (startpos pos : Nat) (x : Message) (z : Message),
      l.length - pos ≤ n → pos < l.length →
      z ∈ siftupAux l l.length startpos pos x → z ∈ l ∨ z = x := by
  induction n with
  | zero => intro l startpos pos x z hn hpos hz; omega
  | succ n ih =>
    intro l startpos pos x z hn hpos hz
    unfold siftupAux at hz
    split at hz
    · split at hz
      · have hc : 2 * pos + 2 < l.length := by
          rename_i h2; exact h2.1
        rw [show l.length = (l.set pos (l.getD (2 * pos + 2) default)).length
          from (List.length_set ..).symm] at hz
        rcases ih _ _ _ _ _ (by simp; omega) (by simp; omega) hz with h | h
        · rcases List.mem_or_eq_of_mem_set h with h' | h'
          · exact Or.inl h'
          · subst h'
            exact Or.inl (by
              rw [List.getD_eq_getElem _ _ hc]; exact List.getElem_mem hc)
        · exact Or.inr h
      · have hc : 2 * pos + 1 < l.length := by assumption
        rw [show l.length = (l.set pos (l.getD (2 * pos + 1) default)).length
          from (List.length_set ..).symm] at hz
        rcases ih _ _ _ _ _ (by simp; omega) (by simp; omega) hz with h | h
        · rcases List.mem_or_eq_of_mem_set h with h' | h'
          · exact Or.inl h'
          · subst h'
            exact Or.inl (by
              rw [List.getD_eq_getElem _ _ hc]; exact List.getElem_mem hc)
        · exact Or.inr h
    · rcases siftdownAux_subset pos _ _ _ _ (by simpa using hpos) hz with h | h
      · rcases List.mem_or_eq_of_mem_set h with h' | h'
        · exact Or.inl h'
        · exact Or.inr h'
      · exact Or.inr h

/-- One bubble-up swap of `_siftdown` preserves the bubble invariant, moving
the exception from `pos` to its parent. -/
theorem bubble_step (l : List Message) (pos : Nat) (h0 : 0 < pos)
    (hlen : pos < l.length) (hB : BubbleInv l pos)
    (hlt : prio l (par pos) < prio l pos) :
    BubbleInv ((l.set pos (l.getD (par pos) default)).set (par pos)
      (l.getD pos default)) (par pos) := by
  have hp' : par pos < pos := par_lt h0
  have hne : par pos ≠ pos := by omega
  have hplen : par pos < l.length := by omega
  have hwp : prio ((l.set pos (l.getD (par pos) default)).set (par pos)
      (l.getD pos default)) (par pos) = prio l pos := by
    rw [prio_set_self _ (by simpa using hplen)]; rfl
  have hwpos : prio ((l.set pos (l.getD (par pos) default)).set (par pos)
      (l.getD pos default)) pos = prio l (par pos) := by
    rw [prio_set_ne _ hne, prio_set_self _ hlen]; rfl
  have hwother : ∀ j, j ≠ pos → j ≠ par pos →
      prio ((l.set pos (l.getD (par pos) default)).set (par pos)
        (l.getD pos default)) j = prio l j := by
    intro j hj1 hj2
    rw [prio_set_ne _ (Ne.symm hj2), prio_set_ne _ (Ne.symm hj1)]
  constructor
  · intro i h0i hilen hip'
    rw [List.length_set, List.length_set] at hilen
    by_cases hipos : i = pos
    · subst hipos
      rw [hwpos, hwp]
      exact le_of_lt hlt
    · by_cases hpi : par i = pos
      · rw [hwother i hipos hip', hpi, hwpos]
        exact hB.2 i h0i hilen hpi h0
      · by_cases hpi' : par i = par pos
        · rw [hwother i hipos hip', hpi', hwp]
          exact le_trans (hB.1 i h0i hilen hipos)
            (by rw [hpi']; exact le_of_lt hlt)
        · rw [hwother i hipos hip', hwother (par i) hpi hpi']
          exact hB.1 i h0i hilen hipos
  · intro i h0i hilen hpi h0p'
    rw [List.length_set, List.length_set] at hilen
    have hqp : par (par pos) < par pos := par_lt h0p'
    have hppne : par (par pos) ≠ par pos := by omega
    have hpppos : par (par pos) ≠ pos := by omega
    rw [hwother (par (par pos)) hpppos hppne]
    by_cases hipos : i = pos
    · subst hipos
      rw [hwpos]
      exact hB.1 (par i) h0p' hplen hne
    · have hip' : i ≠ par pos := by
        intro h; rw [h] at hpi; have := par_lt h0p'; omega
      rw [hwother i hipos hip']
      exact le_trans (hB.1 i h0i hilen hipos)
        (by rw [hpi]; exact hB.1 (par pos) h0p' hplen hne)

/-- `_siftdown` started at `pos` with the bubble invariant yields a full
heap. -/
theorem siftdownAux_inv (pos : Nat) :
    ∀ (l : List Message) (x : Message), pos < l.length →
      BubbleInv (l.set pos x) pos → HeapInv (siftdownAux l 0 pos x) := by
  induction pos using Nat.strong_induction_on with
  | _ pos ih =>
    intro l x hpos hB
    unfold siftdownAux
    split
    · rename_i h0
      split
      · rename_i hlt
        have hnep : pos ≠ par pos := by have := par_lt h0; omega
        have hlt' : prio (l.set pos x) (par pos) < prio (l.set pos x) pos := by
          rw [prio_set_ne x hnep, prio_set_self x hpos]
          simpa only [prio, par] using hlt
        have hbs := bubble_step (l.set pos x) pos h0 (by simpa using hpos)
          hB hlt'
        rw [getD_set_ne x default hnep, getD_set_self x default hpos,
          List.set_set] at hbs
        simp only [par] at hbs
        exact ih _ (by omega) _ _ (by simp; omega) hbs
      · rename_i hge
        intro i h0i hilen
        by_cases hipos : i = pos
        · subst hipos
          rw [List.length_set] at hilen
          have hnep : i ≠ par i := by have := par_lt h0i; omega
          rw [prio_set_self x hilen, prio_set_ne x hnep]
          simp only [prio, par]
          omega
        · exact hB.1 i h0i hilen hipos
    · rename_i h0
      intro i h0i hilen
      exact hB.1 i h0i hilen (by omega)

/-- Moving the maximal child of `pos` into the hole at `pos` moves the hole
invariant down to that child. -/
theorem hole_step (l : List Message) (pos c : Nat) (hlen : pos < l.length)
    (hc : c < l.length) (hpc : par c = pos) (hposc : pos < c)
    (hmax : ∀ j, 0 < j → j < l.length → par j = pos → prio l j ≤ prio l c)
    (hH : HoleInv l pos) : HoleInv (l.set pos (l.getD c default)) c := by
  have h0c : 0 < c := by omega
  have hwpos : prio (l.set pos (l.getD c default)) pos = prio l c := by
    rw [prio_set_self _ hlen]; rfl
  have hwother : ∀ j, j ≠ pos →
      prio (l.set pos (l.getD c default)) j = prio l j :=
    fun j hj => prio_set_ne _ (Ne.symm hj)
  constructor
  · intro i h0i hilen hic hpic
    rw [List.length_set] at hilen
    by_cases hipos : i = pos
    · subst hipos
      rw [hwpos, hwother (par i) (by have := par_lt h0i; omega)]
      exact hH.2 c h0c hc hpc h0i
    · by_cases hpi : par i = pos
      · rw [hwother i hipos, hpi, hwpos]
        exact hmax i h0i hilen hpi
      · rw [hwother i hipos, hwother (par i) hpi]
        exact hH.1 i h0i hilen hipos hpi
  · intro i h0i hilen hpi _
    rw [List.length_set] at hilen
    have hci : c < i := by rw [par] at hpi; omega
    have hipos : i ≠ pos := by omega
    rw [hwother i hipos, hpc, hwpos]
    have h := hH.1 i h0i hilen hipos (by rw [hpi]; omega)
    rw [hpi] at h
    exact h

/-- `_siftup` started at a hole with the hole invariant yields a full heap. -/
theorem siftupAux_inv (n : Nat) :
    ∀ (l : List Message) (pos : Nat) (x : Message),
      l.length - pos ≤ n → pos < l.length → HoleInv l pos →
      HeapInv (siftupAux l l.length 0 pos x) := by
  induction n with
  | zero => intro l pos x hn hpos _; omega
  | succ n ih =>
    intro l pos x hn hpos hH
    unfold siftupAux
    split
    · rename_i h1
      split
      · rename_i h2
        rw [show l.length = (l.set pos (l.getD (2 * pos + 2) default)).length
          from (List.length_set ..).symm]
        apply ih _ _ x (by simp; omega) (by simp; omega)
        apply hole_step l pos (2 * pos + 2) hpos h2.1 (by rw [par]; omega)
          (by omega) ?_ hH
        intro j h0j hjlen hpj
        have hj : j = 2 * pos + 1 ∨ j = 2 * pos + 2 := by
          rw [par] at hpj; omega
        rcases hj with hj | hj
        · subst hj
          have h22 := h2.2
          simp only [msgLt, decide_eq_true_eq] at h22
          simp only [prio]
          omega
        · subst hj; exact le_refl _
      · rename_i h2
        rw [show l.length = (l.set pos (l.getD (2 * pos + 1) default)).length
          from (List.length_set ..).symm]
        apply ih _ _ x (by simp; omega) (by simp; omega)
        apply hole_step l pos (2 * pos + 1) hpos h1 (by rw [par]; omega)
          (by omega) ?_ hH
        intro j h0j hjlen hpj
        have hj : j = 2 * pos + 1 ∨ j = 2 * pos + 2 := by
          rw [par] at hpj; omega
        rcases hj with hj | hj
        · subst hj; exact le_refl _
        · subst hj
          have h22 : msgLt (l.getD (2 * pos + 1) default)
              (l.getD (2 * pos + 2) default) = true := by
            by_contra hcon
            exact h2 ⟨by omega, by simpa using hcon⟩
          simp only [msgLt, decide_eq_true_eq] at h22
          simp only [prio]
          omega
    · rename_i h1
      apply siftdownAux_inv pos (l.set pos x) x (by simp; omega)
      rw [List.set_set]
      constructor
      · intro i h0i hilen hip
        rw [List.length_set] at hilen
        have hpip : par i ≠ pos := by rw [par]; omega
        rw [prio_set_ne x (Ne.symm hip), prio_set_ne x (Ne.symm hpip)]
        exact hH.1 i h0i hilen hip hpip
      · intro i h0i hilen hpi _
        rw [List.length_set] at hilen
        rw [par] at hpi
        omega

/-- In a heap, the root has the maximal priority. -/
theorem prio_le_root (l : List Message) (h : HeapInv l) :
    ∀ i, i < l.length → prio l i ≤ prio l 0 := by
  intro i
  induction i using Nat.strong_induction_on with
  | _ i ih =>
    intro hi
    rcases Nat.eq_zero_or_pos i with h0 | h0
    · subst h0; exact le_refl _
    · exact le_trans (h i h0 hi)
        (ih (par i) (par_lt h0) (lt_trans (par_lt h0) hi))

theorem mem_le_root (l : List Message) (h : HeapInv l) (z : Message)
    (hz : z ∈ l) : z.priority ≤ prio l 0 := by
  rcases List.getElem_of_mem hz with ⟨i, hi, rfl⟩
  have := prio_le_root l h i hi
  rwa [prio, List.getD_eq_getElem _ _ hi] at this

theorem append_set_last {α : Type} (x : α) :
    ∀ (l : List α), (l ++ [x]).set l.length x = l ++ [x]
  | [] => rfl
  | a :: t => by
    simp [append_set_last x t]

/-- The appended leaf satisfies the bubble invariant, so `heappush` preserves
the heap invariant. -/
theorem heappush_heapInv (l : List Message) (x : Message) (h : HeapInv l) :
    HeapInv (heappush l x) := by
  apply siftdownAux_inv l.length (l ++ [x]) x (by simp)
  rw [append_set_last]
  constructor
  · intro i h0i hilen hip
    simp only [List.length_append, List.length_singleton] at hilen
    have hil : i < l.length := by omega
    have hpil : par i < l.length := by have := par_lt h0i; omega
    simp only [prio]
    rw [List.getD_append _ _ _ _ hil, List.getD_append _ _ _ _ hpil]
    exact h i h0i hil
  · intro i h0i hilen hpi _
    simp only [List.length_append, List.length_singleton] at hilen
    rw [par] at hpi
    omega

theorem heapInv_nil : HeapInv [] := by
  intro i _ hl
  simp at hl

theorem foldl_heappush_heapInv (msgs : List Message) :
    ∀ (l : List Message), HeapInv l → HeapInv (msgs.foldl heappush l) := by
  induction msgs with
  | nil => intro l h; exact h
  | cons m ms ih =>
    intro l h
    exact ih (heappush l m) (heappush_heapInv l m h)

theorem pushAll_heapInv (msgs : List Message) : HeapInv (pushAll msgs) :=
  foldl_heappush_heapInv msgs [] heapInv_nil

theorem heappop_eq_none (l : List Message) : heappop l = none ↔ l = [] := by
  rcases l with _ | ⟨x, _ | ⟨y, t⟩⟩ <;> simp [heappop]

theorem heappop_some (l : List Message) (m : Message) (rest : List Message)
    (h : heappop l = some (m, rest)) : ∃ t, l = m :: t := by
  rcases l with _ | ⟨x, _ | ⟨y, t⟩⟩
  · simp [heappop] at h
  · simp only [heappop, Option.some.injEq, Prod.mk.injEq] at h
    exact ⟨[], by rw [h.1]⟩
  · simp only [heappop, Option.some.injEq, Prod.mk.injEq] at h
    exact ⟨y :: t, by rw [h.1]⟩

theorem heappop_length (l : List Message) (m : Message) (rest : List Message)
    (h : heappop l = some (m, rest)) : rest.length + 1 = l.length := by
  rcases l with _ | ⟨x, _ | ⟨y, t⟩⟩
  · simp [heappop] at h
  · simp only [heappop, Option.some.injEq, Prod.mk.injEq] at h
    rw [← h.2]
    rfl
  · simp only [heappop, Option.some.injEq, Prod.mk.injEq] at h
    rw [← h.2, siftup_length]
    simp

theorem heappop_subset (l : List Message) (m : Message) (rest : List Message)
    (h : heappop l = some (m, rest)) : ∀ z ∈ rest, z ∈ l := by
  rcases l with _ | ⟨x, _ | ⟨y, t⟩⟩
  · simp [heappop] at h
  · simp only [heappop, Option.some.injEq, Prod.mk.injEq] at h
    rw [← h.2]
    intro z hz
    simp at hz
  · simp only [heappop, Option.some.injEq, Prod.mk.injEq] at h
    rw [← h.2]
    intro z hz
    have hsub := siftupAux_subset
      (((y :: t).getLast (by simp) :: (y :: t).dropLast).length)
      ((y :: t).getLast (by simp) :: (y :: t).dropLast) 0 0
      (((y :: t).getLast (by simp) :: (y :: t).dropLast).getD 0 default) z
      (by omega) (by simp) hz
    have hlast : (y :: t).getLast (by simp) ∈ x :: y :: t :=
      List.mem_cons_of_mem x (List.getLast_mem _)
    rcases hsub with hmem | heq
    · rcases List.mem_cons.mp hmem with rfl | hdrop
      · exact hlast
      · exact List.mem_cons_of_mem x ((List.dropLast_sublist _).subset hdrop)
    · rw [List.getD_cons_zero] at heq
      exact heq ▸ hlast

/-- `heappop` preserves the heap invariant: the body after removing the root
is a heap with a hole at the root, which `_siftup` repairs. -/
theorem heappop_heapInv (l : List Message) (m : Message) (rest : List Message)
    (hI : HeapInv l) (h : heappop l = some (m, rest)) : HeapInv rest := by
  rcases l with _ | ⟨x, _ | ⟨y, t⟩⟩
  · simp [heappop] at h
  · simp only [heappop, Option.some.injEq, Prod.mk.injEq] at h
    rw [← h.2]
    exact heapInv_nil
  · simp only [heappop, Option.some.injEq, Prod.mk.injEq] at h
    rw [← h.2]
    unfold siftup
    apply siftupAux_inv
      (((y :: t).getLast (by simp) :: (y :: t).dropLast).length)
      ((y :: t).getLast (by simp) :: (y :: t).dropLast) 0
      (((y :: t).getLast (by simp) :: (y :: t).dropLast).getD 0 default)
      (by omega) (by simp)
    have hagree : ∀ j, 0 < j →
        j < ((y :: t).getLast (by simp) :: (y :: t).dropLast).length →
        prio ((y :: t).getLast (by simp) :: (y :: t).dropLast) j =
          prio (x :: y :: t) j := by
      intro j h0j hjl
      obtain ⟨k, rfl⟩ : ∃ k, j = k + 1 := ⟨j - 1, by omega⟩
      simp only [prio, List.getD_cons_succ]
      have hk : k < (y :: t).dropLast.length := by
        simp at hjl ⊢; omega
      rw [List.getD_eq_getElem _ _ hk, List.getElem_dropLast,
        List.getD_eq_getElem _ _ (by simp at hk ⊢; omega)]
    constructor
    · intro i h0i hilen hi0 hpi0
      rw [hagree i h0i hilen,
        hagree (par i) (Nat.pos_of_ne_zero hpi0) (lt_trans (par_lt h0i) hilen)]
      apply hI i h0i
      simp at hilen ⊢
      omega
    · intro i h0i hilen hpi h00
      exact absurd h00 (lt_irrefl 0)

theorem heappop_max (l : List Message) (m : Message) (rest : List Message)
    (hI : HeapInv l) (h : heappop l = some (m, rest)) :
    ∀ z ∈ l, z.priority ≤ m.priority := by
  obtain ⟨t, rfl⟩ := heappop_some l m rest h
  intro z hz
  have hr := mem_le_root _ hI z hz
  simpa [prio] using hr

/-! ## Permutation lemmas: the mailbox operations neither lose nor duplicate
messages -/

theorem siftdownAux_perm (pos : Nat) :
    ∀ (l : List Message) (x : Message), pos < l.length →
      (siftdownAux l 0 pos x).Perm (l.set pos x) := by
  induction pos using Nat.strong_induction_on with
  | _ pos ih =>
    intro l x hpos
    unfold siftdownAux
    split
    · rename_i h0
      split
      · rename_i hlt
        have hrec := ih ((pos - 1) / 2) (by omega)
          (l.set pos (l.getD ((pos - 1) / 2) default)) x (by simp; omega)
        apply hrec.trans
        have hsw := set_set_perm default (l.set pos x) pos ((pos - 1) / 2)
          (by simpa using hpos) (by simp; omega) (by omega)
        rw [getD_set_ne x default (show pos ≠ (pos - 1) / 2 by omega),
          getD_set_self x default hpos, List.set_set] at hsw
        exact hsw
      · exact List.Perm.refl _
    · exact List.Perm.refl _

theorem siftupAux_perm (n : Nat) :
    ∀ (l : List Message) (pos : Nat) (x : Message),
      l.length - pos ≤ n → pos < l.length →
      (siftupAux l l.length 0 pos x).Perm (l.set pos x) := by
  induction n with
  | zero => intro l pos x hn hpos; omega
  | succ n ih =>
    intro l pos x hn hpos
    unfold siftupAux
    split
    · rename_i h1
      split
      · rename_i h2
        rw [show l.length = (l.set pos (l.getD (2 * pos + 2) default)).length
          from (List.length_set ..).symm]
        have hrec := ih (l.set pos (l.getD (2 * pos + 2) default))
          (2 * pos + 2) x (by simp; omega) (by simp; omega)
        apply hrec.trans
        have hsw := set_set_perm default (l.set pos x) pos (2 * pos + 2)
          (by simpa using hpos) (by simp; omega) (by omega)
        rw [getD_set_ne x default (show pos ≠ 2 * pos + 2 by omega),
          getD_set_self x default hpos, List.set_set] at hsw
        exact hsw
      · rename_i h2
        rw [show l.length = (l.set pos (l.getD (2 * pos + 1) default)).length
          from (List.length_set ..).symm]
        have hrec := ih (l.set pos (l.getD (2 * pos + 1) default))
          (2 * pos + 1) x (by simp; omega) (by simp; omega)
        apply hrec.trans
        have hsw := set_set_perm default (l.set pos x) pos (2 * pos + 1)
          (by simpa using hpos) (by simp; omega) (by omega)
        rw [getD_set_ne x default (show pos ≠ 2 * pos + 1 by omega),
          getD_set_self x default hpos, List.set_set] at hsw
        exact hsw
    · rename_i h1
      have := siftdownAux_perm pos (l.set pos x) x (by simp; omega)
      rwa [List.set_set] at this

theorem heappush_perm (l : List Message) (x : Message) :
    (heappush l x).Perm (x :: l) := by
  unfold heappush
  have hp := siftdownAux_perm l.length (l ++ [x]) x (by simp)
  rw [append_set_last] at hp
  refine hp.trans ?_
  have hmid := @List.perm_middle _ x l []
  rw [List.append_nil] at hmid
  exact hmid

theorem heappop_perm (l : List Message) (m : Message) (rest : List Message)
    (h : heappop l = some (m, rest)) : l.Perm (m :: rest) := by
  rcases l with _ | ⟨x, _ | ⟨y, t⟩⟩
  · simp [heappop] at h
  · simp only [heappop, Option.some.injEq, Prod.mk.injEq] at h
    rw [← h.1, ← h.2]
  · simp only [heappop, Option.some.injEq, Prod.mk.injEq] at h
    rw [← h.1, ← h.2]
    apply List.Perm.cons
    have hperm : (siftup ((y :: t).getLast (by simp) :: (y :: t).dropLast)
        0).Perm ((y :: t).getLast (by simp) :: (y :: t).dropLast) := by
      unfold siftup
      have := siftupAux_perm
        (((y :: t).getLast (by simp) :: (y :: t).dropLast).length)
        ((y :: t).getLast (by simp) :: (y :: t).dropLast) 0
        (((y :: t).getLast (by simp) :: (y :: t).dropLast).getD 0 default)
        (by omega) (by simp)
      rwa [set_getD_self default (by simp)] at this
    have hl0 : (y :: t).Perm
        ((y :: t).getLast (by simp) :: (y :: t).dropLast) := by
      conv_lhs => rw [← List.dropLast_append_getLast
        (show y :: t ≠ [] by simp)]
      have hmid := @List.perm_middle _ ((y :: t).getLast (by simp))
        ((y :: t).dropLast) []
      rw [List.append_nil] at hmid
      exact hmid
    exact hl0.trans hperm.symm

theorem foldl_heappush_perm (msgs : List Message) :
    ∀ (l : List Message), (msgs.foldl heappush l).Perm (l ++ msgs) := by
  induction msgs with
  | nil => intro l; simp
  | cons m ms ih =>
    intro l
    have h1 := ih (heappush l m)
    have h2 : ((heappush l m) ++ ms).Perm ((m :: l) ++ ms) :=
      (heappush_perm l m).append_right ms
    refine (h1.trans h2).trans ?_
    have := @List.perm_middle _ m l ms
    exact this.symm

theorem pushAll_perm (msgs : List Message) : (pushAll msgs).Perm msgs := by
  have := foldl_heappush_perm msgs []
  simpa [pushAll] using this

theorem drainFuel_subset (n : Nat) :
    ∀ (l : List Message) (z : Message), z ∈ drainFuel n l → z ∈ l := by
  induction n with
  | zero => intro l z hz; simp [drainFuel] at hz
  | succ n ih =>
    intro l z hz
    rcases hpop : heappop l with _ | ⟨m, rest⟩
    · simp [drainFuel, hpop] at hz
    · simp only [drainFuel, hpop] at hz
      rcases List.mem_cons.mp hz with rfl | hz'
      · obtain ⟨t, rfl⟩ := heappop_some l z rest hpop
        exact List.mem_cons_self z t
      · exact heappop_subset l m rest hpop z (ih rest z hz')

/-- Popping repeatedly from a heap yields non-increasing priorities. -/
theorem drainFuel_sorted (n : Nat) :
    ∀ (l : List Message), HeapInv l →
      (drainFuel n l).Pairwise (fun a b => b.priority ≤ a.priority) := by
  induction n with
  | zero => intro l _; simp [drainFuel]
  | succ n ih =>
    intro l hI
    rcases hpop : heappop l with _ | ⟨m, rest⟩
    · simp [drainFuel, hpop]
    · simp only [drainFuel, hpop]
      refine List.Pairwise.cons ?_ (ih rest (heappop_heapInv l m rest hI hpop))
      intro z hz
      exact heappop_max l m rest hI hpop z
        (heappop_subset l m rest hpop z (drainFuel_subset n rest z hz))

/-- With enough fuel, draining returns exactly the pending messages. -/
theorem drainFuel_perm (n : Nat) :
    ∀ (l : List Message), l.length ≤ n → (drainFuel n l).Perm l := by
  induction n with
  | zero =>
    intro l h
    have hl : l = [] := List.length_eq_zero.mp (by omega)
    subst hl
    simp [drainFuel]
  | succ n ih =>
    intro l hlen
    rcases hpop : heappop l with _ | ⟨m, rest⟩
    · rw [(heappop_eq_none l).mp hpop]
      simp [drainFuel, heappop]
    · simp only [drainFuel, hpop]
      have hrl := heappop_length l m rest hpop
      exact ((ih rest (by omega)).cons m).trans (heappop_perm l m rest hpop).symm

/-! ## Dictionary (association list) lemmas for the broker maps -/

theorem lookup_dictSet_self {α : Type} (k : String) (v : α) :
    ∀ (d : List (String × α)), (dictSet d k v).lookup k = some v := by
  intro d
  induction d with
  | nil => simp [dictSet, List.lookup]
  | cons p rest ih =>
    obtain ⟨k', v'⟩ := p
    by_cases h : k' = k
    · subst h; simp [dictSet, List.lookup]
    · simp only [dictSet, if_neg h]
      rw [List.lookup_cons]
      simp [beq_eq_false_iff_ne.mpr (Ne.symm h), ih]

theorem lookup_dictSet_ne {α : Type} (k a : String) (v : α) (h : a ≠ k) :
    ∀ (d : List (String × α)), (dictSet d k v).lookup a = d.lookup a := by
  intro d
  induction d with
  | nil => simp [dictSet, List.lookup, beq_eq_false_iff_ne.mpr h]
  | cons p rest ih =>
    obtain ⟨k', v'⟩ := p
    by_cases hk : k' = k
    · rw [show dictSet ((k', v') :: rest) k v = (k, v) :: rest from by
        simp [dictSet, hk]]
      rw [List.lookup_cons, List.lookup_cons]
      simp [beq_eq_false_iff_ne.mpr h,
        beq_eq_false_iff_ne.mpr (show a ≠ k' from fun hEq => h (hEq.trans hk))]
    · simp only [dictSet, if_neg hk]
      rw [List.lookup_cons, List.lookup_cons]
      by_cases ha : a = k'
      · subst ha; simp
      · simp [beq_eq_false_iff_ne.mpr ha, ih]

/-- Looking up after a key-preserving per-entry update. -/
theorem lookup_map_update {α : Type} (g : String → α → α) (a : String) :
    ∀ (d : List (String × α)),
      (d.map fun p => (p.1, g p.1 p.2)).lookup a = (d.lookup a).map (g a) := by
  intro d
  induction d with
  | nil => simp
  | cons p rest ih =>
    obtain ⟨k, v⟩ := p
    by_cases h : a = k
    · subst h
      simp [List.lookup]
    · simp only [List.map_cons]
      rw [List.lookup_cons, List.lookup_cons]
      simp [beq_eq_false_iff_ne.mpr h, ih]

/-- Broadcast delivery: after a `send_message` with receiver `"ALL"`, every
registered agent other than the sender has the stamped message pushed into its
queue, and the sender's queue binding is untouched. -/
theorem send_broadcast_lookup (b : Broker) (msg : Message)
    (hall : msg.receiver = "ALL") (a : String) :
    (send_message b msg).1.agent_queues.lookup a =
      if a = msg.sender then b.agent_queues.lookup a
      else (b.agent_queues.lookup a).map
        (fun q => heappush q { msg with id := b.nextId }) := by
  have hfn : (fun p : String × List Message =>
        if p.1 = msg.sender then p
        else (p.1, heappush p.2 { msg with id := b.nextId })) =
      fun p : String × List Message =>
        (p.1, if p.1 = msg.sender then p.2
          else heappush p.2 { msg with id := b.nextId }) := by
    funext p
    obtain ⟨p1, p2⟩ := p
    by_cases hcond : p1 = msg.sender
    · simp [hcond]
    · simp [hcond]
  simp only [send_message]
  rw [if_pos hall, hfn, lookup_map_update (fun k q =>
    if k = msg.sender then q else heappush q { msg with id := b.nextId }) a]
  by_cases hs : a = msg.sender
  · cases b.agent_queues.lookup a <;> simp [hs]
  · cases b.agent_queues.lookup a <;> simp [hs]

/-! ## Concrete exemplar states and messages -/

/-- Equal-priority message used for the tie-break analysis. -/
def tieMsg (c : String) : Message :=
  { id := 0, sender := "agent-a", receiver := "agent-b",
    message_type := .REQUEST, content := c, priority := 1, reply_to := none }

/-- A broker with two registered agents and empty mailboxes. -/
def exBroker : Broker :=
  { agent_queues := [("alice", []), ("bob", [])],
    message_history := [("alice", []), ("bob", [])], nextId := 0 }

/-- A point-to-point request from alice to bob. -/
def exRequest : Message :=
  { id := 42, sender := "alice", receiver := "bob",
    message_type := .REQUEST, content := "ping", priority := 1,
    reply_to := none }

/-- A broker whose one agent has a pending message and non-empty history. -/
def exBrokerPending : Broker :=
  { agent_queues := [("alice", [exRequest])],
    message_history := [("alice", [exRequest])], nextId := 5 }

/-- A message addressed to an agent that was never registered. -/
def exDrop : Message :=
  { id := 0, sender := "alice", receiver := "nobody",
    message_type := .REQUEST, content := "lost", priority := 1,
    reply_to := none }

/-- A broadcast message from alice. -/
def exBcast : Message :=
  { id := 0, sender := "alice", receiver := "ALL",
    message_type := .BROADCAST, content := "hi", priority := 1,
    reply_to := none }

/-- A task assignment for bob. -/
def exTask : Message :=
  { id := 7, sender := "alice", receiver := "bob",
    message_type := .TASK_ASSIGNMENT, content := "job-1", priority := 1,
    reply_to := none }

/-- A response message (dispatching it must be a no-op on the broker). -/
def exResponse : Message :=
  { id := 9, sender := "bob", receiver := "alice",
    message_type := .RESPONSE, content := "pong", priority := 1,
    reply_to := some 3 }

/-- A stub collaborator. -/
def exLLM : String → String := fun _ => "done"

/-! ## Claim theorems -/

/-- C1 (amended): for every sequence of `Put`s into one mailbox (the
`PriorityQueue` embedded by `heappush`/`heappop`), draining by successive
`TryPop`s returns exactly the pending messages (a permutation of the arrival
sequence) in non-increasing priority order.  The FIFO tie-break among equal
priorities claimed by the spec does not hold (see the counterexample below). -/
theorem tryPop_priority_order (msgs : List Message) :
    (drain (pushAll msgs)).Perm msgs ∧
    (drain (pushAll msgs)).Pairwise (fun a b => b.priority ≤ a.priority) := by
  constructor
  · exact (drainFuel_perm (pushAll msgs).length (pushAll msgs) le_rfl).trans
      (pushAll_perm msgs)
  · exact drainFuel_sorted (pushAll msgs).length (pushAll msgs)
      (pushAll_heapInv msgs)

/-- C1 counterexample: four equal-priority messages arriving in order
a, b, c, d are popped in order a, c, b, d — the underlying binary heap is not
stable, so the claimed FIFO tie-break fails. -/
theorem tryPop_fifo_counterexample :
    (tieMsg "a").priority = 1 ∧ (tieMsg "b").priority = 1 ∧
    (tieMsg "c").priority = 1 ∧ (tieMsg "d").priority = 1 ∧
    drain (pushAll [tieMsg "a", tieMsg "b", tieMsg "c", tieMsg "d"]) =
      [tieMsg "a", tieMsg "c", tieMsg "b", tieMsg "d"] ∧
    drain (pushAll [tieMsg "a", tieMsg "b", tieMsg "c", tieMsg "d"]) ≠
      [tieMsg "a", tieMsg "b", tieMsg "c", tieMsg "d"] := by
  have heval : drain (pushAll [tieMsg "a", tieMsg "b", tieMsg "c", tieMsg "d"])
      = [tieMsg "a", tieMsg "c", tieMsg "b", tieMsg "d"] := by
    simp [drain, drainFuel, pushAll, heappop, heappush, siftup, siftupAux,
      siftdownAux, msgLt, tieMsg]
  refine ⟨rfl, rfl, rfl, rfl, heval, ?_⟩
  rw [heval]
  decide

/-- C2: a `send_message` with receiver `"ALL"` pushes the (id-stamped) message
into the mailbox of every registered agent whose id differs from the sender,
and leaves the sender's own mailbox binding unchanged. -/
theorem broadcast_exclusion (b : Broker) (msg : Message) (a : String)
    (hall : msg.receiver = "ALL") :
    (send_message b msg).1.agent_queues.lookup a =
      if a = msg.sender then b.agent_queues.lookup a
      else (b.agent_queues.lookup a).map
        (fun q => heappush q { msg with id := b.nextId }) :=
  send_broadcast_lookup b msg hall a

theorem broadcast_exclusion_witness :
    (send_message exBroker exBcast).1.agent_queues.lookup "bob" =
      if "bob" = exBcast.sender then exBroker.agent_queues.lookup "bob"
      else (exBroker.agent_queues.lookup "bob").map
        (fun q => heappush q { exBcast with id := exBroker.nextId }) :=
  broadcast_exclusion exBroker exBcast "bob" rfl

/-- C3 counterexample: `send_message` has no `return` statement in the source,
so it returns `None` — not the id-assigned message the claim describes. -/
theorem send_returns_none_counterexample :
    (send_message exBroker exRequest).2 = none := rfl

/-- C3 (amended): `send_message` overwrites the caller-supplied id with the
fresh token `b.nextId` (the uuid oracle), the copy enqueued for a registered
receiver is exactly the stamped message — so any receiver that later dequeues
it observes that id — and the counter increments so later sends get distinct
ids; but `send_message` returns `None`, not the stamped message. -/
theorem send_id_assignment (b : Broker) (msg : Message) (q : List Message)
    (hr : msg.receiver ≠ "ALL")
    (hq : b.agent_queues.lookup msg.receiver = some q) :
    (send_message b msg).1.agent_queues.lookup msg.receiver =
      some (heappush q { msg with id := b.nextId }) ∧
    ({ msg with id := b.nextId } : Message).id = b.nextId ∧
    (send_message b msg).1.nextId = b.nextId + 1 ∧
    (send_message b msg).2 = none := by
  refine ⟨?_, rfl, rfl, rfl⟩
  simp only [send_message, if_neg hr, hq]
  exact lookup_dictSet_self msg.receiver _ b.agent_queues

theorem send_id_assignment_witness :
    ((send_message exBroker exRequest).1.agent_queues.lookup
        exRequest.receiver =
      some (heappush [] { exRequest with id := exBroker.nextId }) ∧
    ({ exRequest with id := exBroker.nextId } : Message).id =
      exBroker.nextId ∧
    (send_message exBroker exRequest).1.nextId = exBroker.nextId + 1 ∧
    (send_message exBroker exRequest).2 = none) :=
  send_id_assignment exBroker exRequest [] (by decide) rfl

/-- C4: a `send_message` whose receiver is neither `"ALL"` nor registered
changes no mailbox and returns normally (`None`). -/
theorem unregistered_drop (b : Broker) (msg : Message)
    (hr : msg.receiver ≠ "ALL")
    (hq : b.agent_queues.lookup msg.receiver = none) :
    (send_message b msg).1.agent_queues = b.agent_queues ∧
    (send_message b msg).2 = none := by
  refine ⟨?_, rfl⟩
  simp [send_message, if_neg hr, hq]

theorem unregistered_drop_witness :
    (send_message exBroker exDrop).1.agent_queues = exBroker.agent_queues ∧
    (send_message exBroker exDrop).2 = none :=
  unregistered_drop exBroker exDrop (by decide) rfl

/-- C5: dispatching a dequeued `REQUEST` runs the response collaborator on the
request content (through the `process_request` prompt) and performs exactly
one broker send: a `RESPONSE` to the original sender whose content is the
collaborator's output and whose `reply_to` is the original message's id. -/
theorem request_response_dispatch (b : Broker) (agent_id : String)
    (llm : String → String) (msg : Message)
    (hm : msg.message_type = .REQUEST) :
    handle_message b agent_id llm msg =
      (send_message b
        { id := 0, sender := agent_id, receiver := msg.sender,
          message_type := .RESPONSE,
          content := process_request agent_id llm msg.content,
          priority := 1, reply_to := some msg.id }).1 := by
  simp [handle_message, hm]

theorem request_response_dispatch_witness :
    handle_message exBroker "bob" exLLM exRequest =
      (send_message exBroker
        { id := 0, sender := "bob", receiver := exRequest.sender,
          message_type := .RESPONSE,
          content := process_request "bob" exLLM exRequest.content,
          priority := 1, reply_to := some exRequest.id }).1 :=
  request_response_dispatch exBroker "bob" exLLM exRequest rfl

/-- C6: dispatching a dequeued `TASK_ASSIGNMENT` runs the task collaborator
and broadcasts (`receiver = "ALL"`) a completion message whose content
contains both the task text and the collaborator's result; every registered
agent other than the executing agent has it pushed into its mailbox, the
executing agent's own mailbox binding is unchanged. -/
theorem task_assignment_broadcast (b : Broker) (agent_id : String)
    (llm : String → String) (msg : Message) (a : String)
    (hm : msg.message_type = .TASK_ASSIGNMENT) :
    (∃ pre post : String,
      "Task completed: " ++ msg.content ++ ". Result: " ++
          process_request agent_id llm ("Execute this task: " ++ msg.content) =
        pre ++ msg.content ++ post) ∧
    (∃ pre post : String,
      "Task completed: " ++ msg.content ++ ". Result: " ++
          process_request agent_id llm ("Execute this task: " ++ msg.content) =
        pre ++
          process_request agent_id llm ("Execute this task: " ++ msg.content)
          ++ post) ∧
    (handle_message b agent_id llm msg).agent_queues.lookup a =
      if a = agent_id then b.agent_queues.lookup a
      else (b.agent_queues.lookup a).map (fun q => heappush q
        { id := b.nextId, sender := agent_id, receiver := "ALL",
          message_type := .BROADCAST,
          content := "Task completed: " ++ msg.content ++ ". Result: " ++
            process_request agent_id llm
              ("Execute this task: " ++ msg.content),
          priority := 1, reply_to := none }) := by
  refine ⟨⟨"Task completed: ", ". Result: " ++
      process_request agent_id llm ("Execute this task: " ++ msg.content),
      ?_⟩,
    ⟨"Task completed: " ++ msg.content ++ ". Result: ", "", ?_⟩, ?_⟩
  · rw [String.append_assoc]
  · rw [String.append_empty]
  · have hlk := send_broadcast_lookup b
      { id := 0, sender := agent_id, receiver := "ALL",
        message_type := .BROADCAST,
        content := "Task completed: " ++ msg.content ++ ". Result: " ++
          process_request agent_id llm ("Execute this task: " ++ msg.content),
        priority := 1, reply_to := none } rfl a
    simp only [handle_message, hm, execute_task]
    exact hlk

theorem task_assignment_broadcast_witness :
    ((∃ pre post : String,
      "Task completed: " ++ exTask.content ++ ". Result: " ++
          process_request "bob" exLLM ("Execute this task: " ++ exTask.content)
        = pre ++ exTask.content ++ post) ∧
    (∃ pre post : String,
      "Task completed: " ++ exTask.content ++ ". Result: " ++
          process_request "bob" exLLM ("Execute this task: " ++ exTask.content)
        = pre ++
          process_request "bob" exLLM ("Execute this task: " ++ exTask.content)
          ++ post) ∧
    (handle_message exBroker "bob" exLLM exTask).agent_queues.lookup "alice" =
      if "alice" = "bob" then exBroker.agent_queues.lookup "alice"
      else (exBroker.agent_queues.lookup "alice").map (fun q => heappush q
        { id := exBroker.nextId, sender := "bob", receiver := "ALL",
          message_type := .BROADCAST,
          content := "Task completed: " ++ exTask.content ++ ". Result: " ++
            process_request "bob" exLLM
              ("Execute this task: " ++ exTask.content),
          priority := 1, reply_to := none })) :=
  task_assignment_broadcast exBroker "bob" exLLM exTask "alice" rfl

/-- C8: dispatching a dequeued `RESPONSE` or `BROADCAST` performs no broker
traffic at all: the broker state (every mailbox and every history bucket) is
returned unchanged. -/
theorem response_broadcast_no_traffic (b : Broker) (agent_id : String)
    (llm : String → String) (msg : Message)
    (hm : msg.message_type = .RESPONSE ∨ msg.message_type = .BROADCAST) :
    handle_message b agent_id llm msg = b := by
  rcases hm with hm | hm <;> simp [handle_message, hm]

theorem response_broadcast_no_traffic_witness :
    handle_message exBroker "alice" exLLM exResponse = exBroker :=
  response_broadcast_no_traffic exBroker "alice" exLLM exResponse
    (Or.inl rfl)

/-- C9: registering an id that is already registered installs a fresh empty
mailbox and a fresh empty history bucket, discarding the pending messages and
recorded history. -/
theorem register_again_resets (b : Broker) (A : String)
    (q h : List Message)
    (_hq : b.agent_queues.lookup A = some q)
    (_hh : b.message_history.lookup A = some h) :
    (register_agent b A).agent_queues.lookup A = some [] ∧
    (register_agent b A).message_history.lookup A = some [] :=
  ⟨lookup_dictSet_self A [] b.agent_queues,
   lookup_dictSet_self A [] b.message_history⟩

theorem register_again_resets_witness :
    (register_agent exBrokerPending "alice").agent_queues.lookup "alice" =
      some [] ∧
    (register_agent exBrokerPending "alice").message_history.lookup "alice" =
      some [] :=
  register_again_resets exBrokerPending "alice" [exRequest] [exRequest]
    rfl rfl

/-- C10: `receive_message` for an unregistered agent id (the `KeyError` is
swallowed), or for a registered agent with an empty mailbox, returns the
normal no-message result `none` and leaves the broker unchanged. -/
theorem receive_no_message (b : Broker) (a : String)
    (h : b.agent_queues.lookup a = none ∨
      b.agent_queues.lookup a = some []) :
    receive_message b a = (b, none) := by
  rcases h with h | h <;> simp [receive_message, h]

theorem receive_no_message_witness :
    receive_message exBroker "carol" = (exBroker, none) :=
  receive_no_message exBroker "carol" (Or.inl rfl)

/-! ## C7: send history -/

/-- Fold a sequence of `send_message` calls over a broker state. -/
def sendAll (b : Broker) (msgs : List Message) : Broker :=
  msgs.foldl (fun st msg => (send_message st msg).1) b

/-- The id-stamped copies a run of sends starting at counter `n` appends. -/
def stampFrom : Nat → List Message → List Message
  | _, [] => []
  | n, msg :: rest => { msg with id := n } :: stampFrom (n + 1) rest

theorem stampFrom_length :
    ∀ (n : Nat) (msgs : List Message),
      (stampFrom n msgs).length = msgs.length := by
  intro n msgs
  induction msgs generalizing n with
  | nil => rfl
  | cons m ms ih => simp [stampFrom, ih]

/-- One send from a registered sender appends exactly the stamped message to
the sender's history bucket. -/
theorem send_history_step (b : Broker) (m : Message) (A : String)
    (h0 : List Message) (hsm : m.sender = A)
    (hA : b.message_history.lookup A = some h0) :
    (send_message b m).1.message_history.lookup A =
      some (h0 ++ [{ m with id := b.nextId }]) := by
  simp only [send_message, hsm, hA]
  exact lookup_dictSet_self A _ b.message_history

theorem sendAll_history (msgs : List Message) :
    ∀ (b : Broker) (A : String) (h0 : List Message),
      (∀ m ∈ msgs, m.sender = A) →
      b.message_history.lookup A = some h0 →
      (sendAll b msgs).message_history.lookup A =
        some (h0 ++ stampFrom b.nextId msgs) := by
  induction msgs with
  | nil =>
    intro b A h0 _ hA
    simpa [sendAll, stampFrom] using hA
  | cons m ms ih =>
    intro b A h0 hs hA
    have hstep := send_history_step b m A h0 (hs m (List.mem_cons_self m ms))
      hA
    have hrec := ih (send_message b m).1 A (h0 ++ [{ m with id := b.nextId }])
      (fun x hx => hs x (List.mem_cons_of_mem m hx)) hstep
    rw [show (send_message b m).1.nextId = b.nextId + 1 from rfl] at hrec
    simpa [sendAll, stampFrom, List.append_assoc] using hrec

/-- C7: after a run of `N` sends whose sender is the registered agent `A`
(whatever the receivers — delivered, broadcast, or dropped), `A`'s history
bucket has grown by exactly the `N` id-stamped messages, in call order. -/
theorem sender_history_append (b : Broker) (A : String) (h0 : List Message)
    (msgs : List Message) (hs : ∀ m ∈ msgs, m.sender = A)
    (hA : b.message_history.lookup A = some h0) :
    (sendAll b msgs).message_history.lookup A =
      some (h0 ++ stampFrom b.nextId msgs) ∧
    (h0 ++ stampFrom b.nextId msgs).length = h0.length + msgs.length := by
  refine ⟨sendAll_history msgs b A h0 hs hA, ?_⟩
  simp [stampFrom_length]

theorem sender_history_append_witness :
    ((sendAll exBroker [exRequest, exDrop, exBcast]).message_history.lookup
        "alice" =
      some ([] ++ stampFrom exBroker.nextId [exRequest, exDrop, exBcast]) ∧
    (([] : List Message) ++
        stampFrom exBroker.nextId [exRequest, exDrop, exBcast]).length =
      ([] : List Message).length + 3) :=
  sender_history_append exBroker "alice" [] [exRequest, exDrop, exBcast]
    (by decide) rfl

end MessageQue
